import Mathlib

/-!
Shallow embedding of `src/main.rs` of `bipmed/brave-import`.

The program reads variant records from a VCF file, computes per-record
statistics (`percentile`, `calc_distribution`), extracts annotation
sub-fields (`split_ann`, `get_field`), assembles a `Variant`-like value and
submits it over HTTP.  The VCF reader, the HTTP transport and the CLI
parser are external collaborators; only the values they hand to the core
logic are modelled (e.g. a record's `CLNSIG` INFO field becomes an
`Option (List String)`).

Conventions of the embedding:
* Rust `i64` sample values become `ℤ`; the `f32` results of the statistics
  become `ℚ` (exact arithmetic in place of floating point).
* A Rust panic or failed `assert!` becomes `none` in an `Option` result.
* `Vec::sort` becomes `List.mergeSort` with the ascending order on `ℤ`.
* Rust's `str::split(c)` becomes `split_char c` on the string's character
  list (`String.splitOn` is not used because it does not reduce in the
  kernel; `split_char` has identical semantics for a one-character
  separator).
-/

/-- Ascending comparison on `ℤ`, the order used by `values.sort()` in
`calc_distribution`. -/
def intLe (a b : ℤ) : Bool := decide (a ≤ b)

/-- `const GENE_SYMBOL: usize = 3;` — index of the gene-symbol sub-field of
an annotation block. -/
def GENE_SYMBOL : Nat := 3

/-- `const TYPE: usize = 5;` — index of the variant-type sub-field of an
annotation block. -/
def TYPE : Nat := 5

/-- `const HGVS: usize = 9;` — index of the HGVS sub-field of an annotation
block. -/
def HGVS : Nat := 9

/-- The `Distribution` struct of `main.rs` (`min/q25/median/q75/max/mean`),
with `f32` replaced by exact rationals. -/
structure Distribution where
  min : ℚ
  q25 : ℚ
  median : ℚ
  q75 : ℚ
  max : ℚ
  mean : ℚ
deriving Repr, DecidableEq

/-- Embedding of `percentile` (`main.rs` lines 271–296).  Mirrors the Rust
control flow: empty input and out-of-range `pct` fail the `assert!`s
(modelled as `none`); a one-element slice returns its element before any
`pct` validation; `pct == 100` returns the last element; otherwise the
result interpolates between the elements at `⌊rank⌋` and `⌊rank⌋ + 1`,
where the two slice indexings are guarded by one bounds check (an
out-of-bounds indexing panic becomes `none`). -/
def percentile (sorted_values : List ℤ) (pct : ℚ) : Option ℚ :=
  if sorted_values = [] then none
  else if sorted_values.length = 1 then some ((sorted_values.headD 0 : ℤ) : ℚ)
  else if pct < 0 then none
  else if 100 < pct then none
  else if pct = 100 then some ((sorted_values.getLastD 0 : ℤ) : ℚ)
  else
    let length : ℚ := ((sorted_values.length - 1 : ℕ) : ℚ)
    let rank : ℚ := (pct / 100) * length
    let lrank : ℤ := ⌊rank⌋
    let d : ℚ := rank - (lrank : ℚ)
    let n : ℕ := lrank.toNat
    if n + 1 < sorted_values.length then
      some (((sorted_values.getD n 0 : ℤ) : ℚ) +
        (((sorted_values.getD (n + 1) 0 : ℤ) : ℚ) - ((sorted_values.getD n 0 : ℤ) : ℚ)) * d)
    else none

/-- Embedding of `calc_distribution` (`main.rs` lines 228–247).  The
per-sample `i64` values of one FORMAT tag (`DP` or `GQ`) are sorted
ascending, then the struct fields are filled from `values[0]`,
`percentile` at 25/50/75, `values[len-1]` and the arithmetic mean.  The
indexing panic on an empty vector and any `percentile` failure become
`none`. -/
def calc_distribution (raw_values : List ℤ) : Option Distribution :=
  let values := raw_values.mergeSort intLe
  match values.head?, percentile values 25, percentile values 50,
      percentile values 75, values.getLast? with
  | some mn, some q25, some med, some q75, some mx =>
      some ⟨(mn : ℚ), q25, med, q75, (mx : ℚ), ((values.sum : ℤ) : ℚ) / (values.length : ℚ)⟩
  | _, _, _, _, _ => none

/-- Split a character list at every occurrence of `c`; exact model of
Rust's `str::split(c)` (and of `String.splitOn` for a one-character
separator): `""` yields `[""]`, separators at the ends yield empty
pieces. -/
def split_char (c : Char) : List Char → List (List Char)
  | [] => [[]]
  | x :: rest =>
    let r := split_char c rest
    if x = c then [] :: r
    else
      match r with
      | [] => [[x]]
      | g :: gs => (x :: g) :: gs

/-- Embedding of `get_snp_ids` (`main.rs` lines 58–65): the record's ID
string; `"."` maps to `none`, anything else is split on `';'`. -/
def get_snp_ids (id : String) : Option (List String) :=
  if id = "." then none
  else some ((split_char ';' id.data).map String.mk)

/-- Embedding of `split_ann` (`main.rs` lines 249–251): split one
annotation block on `'|'` into positional sub-fields. -/
def split_ann (ann : String) : List String :=
  (split_char '|' ann.data).map String.mk

/-- Embedding of `get_field` (`main.rs` lines 253–259): map each block to
its sub-field at `index`; the Rust indexing panic on the first too-short
block becomes `none` for the whole extraction. -/
def get_field (fields : List (List String)) (index : Nat) : Option (List String) :=
  match fields with
  | [] => some []
  | block :: rest =>
    match block[index]?, get_field rest index with
    | some v, some vs => some (v :: vs)
    | _, _ => none

/-- Embedding of the `CLNSIG` handling in `main` (`main.rs` line 166):
`get_info_field(&record, "CLNSIG").map(|x| x[0].to_owned())`.  The
argument is the record's `CLNSIG` INFO values as delivered by the external
VCF reader (`none` when the field is absent); the outer `Option` models
the `x[0]` indexing panic on a present-but-empty value list. -/
def build_clnsig (clnsig_info : Option (List String)) : Option (Option String) :=
  match clnsig_info with
  | none => some none
  | some [] => none
  | some (v :: _) => some (some v)

/-- Modelled from the spec (§3, `clnsig`): "clinical significance values
joined by comma".  This is the specification-side definition used to
compare against `build_clnsig`, which is the code-side definition. -/
def clnsig_spec_joined (clnsig_info : Option (List String)) : Option String :=
  clnsig_info.map (fun vs => String.intercalate "," vs)

/-- Embedding of the `ANN` handling in `main` (`main.rs` lines 174–183):
absent field yields `(None, None, None)`; a present field is split into
blocks and the sub-fields at `GENE_SYMBOL`, `TYPE` and `HGVS` are gathered,
all three wrapped in `Some`.  The outer `Option` models the `get_field`
indexing panic. -/
def build_ann (ann_info : Option (List String)) :
    Option (Option (List String) × Option (List String) × Option (List String)) :=
  match ann_info with
  | none => some (none, none, none)
  | some ann =>
    let fields := ann.map split_ann
    match get_field fields GENE_SYMBOL, get_field fields TYPE, get_field fields HGVS with
    | some gene_symbol, some variant_type, some hgvs =>
        some (some gene_symbol, some variant_type, some hgvs)
    | _, _, _ => none

/-- Embedding of the HTTP client construction (`main.rs` line 119):
`Client::builder().danger_accept_invalid_certs(!disable_ssl)` — the value
passed to `danger_accept_invalid_certs` as a function of the
`--disable-ssl` flag.  `true` means invalid TLS certificates are
accepted. -/
def client_accepts_invalid_certs (disable_ssl : Bool) : Bool := !disable_ssl

/-- The two run-scoped counters of `main` (`total_variants`,
`passed_variants`). -/
structure RunCounters where
  total_variants : Nat
  passed_variants : Nat
deriving Repr, DecidableEq

/-- One loop iteration's effect on the counters (`main.rs` lines 126–135):
`total_variants += 1`; then, unless filtering is on and the record lacks
the `PASS` filter, `passed_variants += 1` (the `continue` skips the
increment). -/
def step_counters (do_filter : Bool) (has_pass_filter : Bool) (c : RunCounters) : RunCounters :=
  let c1 : RunCounters := { c with total_variants := c.total_variants + 1 }
  if do_filter && !has_pass_filter then c1
  else { c1 with passed_variants := c1.passed_variants + 1 }

/-- Counter state after processing a run, starting from `(0, 0)`; each
record is abstracted to its `has_filter("PASS")` flag. -/
def run_counters (do_filter : Bool) (records : List Bool) : RunCounters :=
  records.foldl (fun c r => step_counters do_filter r c) ⟨0, 0⟩

/-- The end-of-run report (`main.rs` lines 222–225): the total count line
is always printed; the passed count line only when filtering was
active. -/
def final_report (do_filter : Bool) (c : RunCounters) : List String :=
  ("Total variants: " ++ toString c.total_variants) ::
    (if do_filter then [("Passed variants: " ++ toString c.passed_variants)] else [])

/-! ### Helper lemmas about `percentile` -/

theorem percentile_single (v : ℤ) (p : ℚ) : percentile [v] p = some (v : ℚ) := by
  simp [percentile]

theorem percentile_hundred (values : List ℤ) (h : values ≠ []) :
    percentile values 100 = some ((values.getLastD 0 : ℤ) : ℚ) := by
  match values, h with
  | [v], _ => simp [percentile]
  | v₁ :: v₂ :: rest, _ =>
    simp only [percentile, if_neg (List.cons_ne_nil v₁ (v₂ :: rest))]
    norm_num

theorem floor_rank_toNat_lt (len : ℕ) (p : ℚ) (h2 : 2 ≤ len) (hp0 : 0 ≤ p) (hp1 : p < 100) :
    (⌊(p / 100) * ((len - 1 : ℕ) : ℚ)⌋).toNat + 1 < len := by
  have hpos : (0 : ℚ) < ((len - 1 : ℕ) : ℚ) := by
    exact_mod_cast (show 0 < len - 1 by omega)
  have hr0 : (0 : ℚ) ≤ (p / 100) * ((len - 1 : ℕ) : ℚ) :=
    mul_nonneg (div_nonneg hp0 (by norm_num)) hpos.le
  have hd1 : p / 100 < 1 := (div_lt_one (by norm_num)).2 hp1
  have hrlt : (p / 100) * ((len - 1 : ℕ) : ℚ) < ((len - 1 : ℕ) : ℚ) :=
    mul_lt_of_lt_one_left hpos hd1
  have hfl : ⌊(p / 100) * ((len - 1 : ℕ) : ℚ)⌋ < ((len - 1 : ℕ) : ℤ) := by
    rw [Int.floor_lt]
    exact_mod_cast hrlt
  have hf0 : 0 ≤ ⌊(p / 100) * ((len - 1 : ℕ) : ℚ)⌋ := Int.floor_nonneg.2 hr0
  omega

theorem percentile_formula (values : List ℤ) (p : ℚ) (h2 : 2 ≤ values.length)
    (hp0 : 0 ≤ p) (hp1 : p < 100) :
    percentile values p =
      some (((values.getD (⌊(p / 100) * ((values.length - 1 : ℕ) : ℚ)⌋).toNat 0 : ℤ) : ℚ) +
        (((values.getD ((⌊(p / 100) * ((values.length - 1 : ℕ) : ℚ)⌋).toNat + 1) 0 : ℤ) : ℚ) -
          ((values.getD (⌊(p / 100) * ((values.length - 1 : ℕ) : ℚ)⌋).toNat 0 : ℤ) : ℚ)) *
          ((p / 100) * ((values.length - 1 : ℕ) : ℚ) -
            ((⌊(p / 100) * ((values.length - 1 : ℕ) : ℚ)⌋ : ℤ) : ℚ))) := by
  have hne : values ≠ [] := by
    intro h
    rw [h] at h2
    simp at h2
  have hlen : values.length ≠ 1 := by omega
  have hlt := floor_rank_toNat_lt values.length p h2 hp0 hp1
  simp only [percentile]
  rw [if_neg hne, if_neg hlen, if_neg (not_lt.2 hp0), if_neg (not_lt.2 hp1.le),
    if_neg (ne_of_lt hp1), if_pos hlt]

theorem percentile_zero (values : List ℤ) (h2 : 2 ≤ values.length) :
    percentile values 0 = some ((values.headD 0 : ℤ) : ℚ) := by
  rw [percentile_formula values 0 h2 le_rfl (by norm_num)]
  match values, h2 with
  | v₁ :: v₂ :: rest, _ => norm_num

theorem percentile_isSome (values : List ℤ) (p : ℚ) (hne : values ≠ [])
    (hp0 : 0 ≤ p) (hp1 : p ≤ 100) : ∃ q, percentile values p = some q := by
  rcases eq_or_lt_of_le hp1 with h100 | hlt
  · exact ⟨_, h100 ▸ percentile_hundred values hne⟩
  · rcases Nat.lt_or_ge values.length 2 with hsmall | h2
    · have h1 : values.length = 1 := by
        have : values.length ≠ 0 := fun h => hne (List.length_eq_zero.mp h)
        omega
      obtain ⟨v, rfl⟩ := List.length_eq_one.mp h1
      exact ⟨_, percentile_single v p⟩
    · exact ⟨_, percentile_formula values p h2 hp0 hlt⟩

/-! ### C1 and C10: the quantile function -/

/-- C1: quantile-at-percentile on an integer sequence: a length-1 sequence
returns its single element for every valid `p`; `p = 100` returns the last
element; otherwise (length ≥ 2, `0 ≤ p < 100`) the result is
`values[lo] + (values[lo+1] - values[lo]) * frac` with
`r = (p/100)*(n-1)`, `lo = ⌊r⌋`, `frac = r - lo`; on `[1,2,3,4]` the
quantiles at 25/50/75 are 7/4, 5/2, 13/4; and for length ≥ 2 the quantile
at 0 is the first and at 100 the last element. -/
theorem percentile_quantile_spec :
    (∀ (values : List ℤ) (p : ℚ), values.length = 1 → 0 ≤ p → p ≤ 100 →
        percentile values p = some ((values.headD 0 : ℤ) : ℚ)) ∧
    (∀ values : List ℤ, values ≠ [] →
        percentile values 100 = some ((values.getLastD 0 : ℤ) : ℚ)) ∧
    (∀ (values : List ℤ) (p : ℚ), 2 ≤ values.length → 0 ≤ p → p < 100 →
        percentile values p =
          some (((values.getD (⌊(p / 100) * ((values.length - 1 : ℕ) : ℚ)⌋).toNat 0 : ℤ) : ℚ) +
            (((values.getD ((⌊(p / 100) * ((values.length - 1 : ℕ) : ℚ)⌋).toNat + 1) 0 : ℤ) : ℚ) -
              ((values.getD (⌊(p / 100) * ((values.length - 1 : ℕ) : ℚ)⌋).toNat 0 : ℤ) : ℚ)) *
              ((p / 100) * ((values.length - 1 : ℕ) : ℚ) -
                ((⌊(p / 100) * ((values.length - 1 : ℕ) : ℚ)⌋ : ℤ) : ℚ)))) ∧
    percentile [1, 2, 3, 4] 25 = some (7 / 4) ∧
    percentile [1, 2, 3, 4] 50 = some (5 / 2) ∧
    percentile [1, 2, 3, 4] 75 = some (13 / 4) ∧
    (∀ values : List ℤ, 2 ≤ values.length →
        percentile values 0 = some ((values.headD 0 : ℤ) : ℚ)) := by
  refine ⟨?_, percentile_hundred, percentile_formula, ?_, ?_, ?_, percentile_zero⟩
  · intro values p h1 _ _
    obtain ⟨v, rfl⟩ := List.length_eq_one.mp h1
    exact percentile_single v p
  · rw [percentile_formula [1, 2, 3, 4] 25 (by norm_num) (by norm_num) (by norm_num)]
    norm_num
  · rw [percentile_formula [1, 2, 3, 4] 50 (by norm_num) (by norm_num) (by norm_num)]
    norm_num
  · have ht : (⌊((75 : ℚ) / 100) * ((([1, 2, 3, 4] : List ℤ).length - 1 : ℕ) : ℚ)⌋).toNat = 2 := by
      norm_num
      decide
    rw [percentile_formula [1, 2, 3, 4] 75 (by norm_num) (by norm_num) (by norm_num), ht]
    norm_num

/-- Witness for C1: the length-1, `p = 100` and interpolation clauses at
concrete inputs. -/
theorem percentile_quantile_spec_witness :
    percentile [7] 30 = some ((([7] : List ℤ).headD 0 : ℤ) : ℚ) ∧
    percentile [3, 9] 100 = some ((([3, 9] : List ℤ).getLastD 0 : ℤ) : ℚ) ∧
    percentile [3, 9] 0 = some ((([3, 9] : List ℤ).headD 0 : ℤ) : ℚ) :=
  ⟨percentile_quantile_spec.1 [7] 30 (by norm_num) (by norm_num) (by norm_num),
   percentile_quantile_spec.2.1 [3, 9] (by simp),
   percentile_quantile_spec.2.2.2.2.2.2 [3, 9] (by norm_num)⟩

/-- C10: `percentile` is total on every non-empty sequence with
`0 ≤ p ≤ 100` (its panic branches are unreachable), and when the
interpolation branch is taken (length ≥ 2, `p < 100`) the higher index
`⌊r⌋.toNat + 1` is still in bounds. -/
theorem percentile_total_in_bounds :
    ∀ (values : List ℤ) (p : ℚ), values ≠ [] → 0 ≤ p → p ≤ 100 →
      (∃ q, percentile values p = some q) ∧
      (2 ≤ values.length → p < 100 →
        (⌊(p / 100) * ((values.length - 1 : ℕ) : ℚ)⌋).toNat + 1 < values.length) := by
  intro values p hne hp0 hp1
  exact ⟨percentile_isSome values p hne hp0 hp1,
    fun h2 hlt => floor_rank_toNat_lt values.length p h2 hp0 hlt⟩

/-- Witness for C10 at `values = [1, 2]`, `p = 50`. -/
theorem percentile_total_in_bounds_witness :
    (∃ q, percentile [1, 2] 50 = some q) ∧
    (2 ≤ ([1, 2] : List ℤ).length → (50 : ℚ) < 100 →
      (⌊((50 : ℚ) / 100) * ((([1, 2] : List ℤ).length - 1 : ℕ) : ℚ)⌋).toNat + 1 <
        ([1, 2] : List ℤ).length) :=
  percentile_total_in_bounds [1, 2] 50 (by simp) (by norm_num) (by norm_num)

/-! ### C2: the distribution calculator -/

theorem head?_eq_headD (l : List ℤ) (h : l ≠ []) : l.head? = some (l.headD 0) := by
  cases l with
  | nil => exact absurd rfl h
  | cons a t => rfl

theorem getLast?_eq_getLastD (l : List ℤ) (h : l ≠ []) : l.getLast? = some (l.getLastD 0) := by
  induction l with
  | nil => exact absurd rfl h
  | cons a t ih =>
    cases t with
    | nil => rfl
    | cons b t2 =>
      rw [List.getLast?_cons_cons, List.getLastD_cons, ih (List.cons_ne_nil b t2)]
      rfl

/-- C2: on an empty per-sample value collection `calc_distribution` fails
(`none`, modelling the fatal error) and never yields a defaulted
`Distribution`; on a non-empty collection it succeeds with `min`/`max` the
first/last elements of the ascending sort and `mean` the arithmetic mean
of all values. -/
theorem calc_distribution_empty_fails_nonempty_stats :
    calc_distribution [] = none ∧
    ∀ values : List ℤ, values ≠ [] →
      ∃ d, calc_distribution values = some d ∧
        d.min = (((values.mergeSort intLe).headD 0 : ℤ) : ℚ) ∧
        d.max = (((values.mergeSort intLe).getLastD 0 : ℤ) : ℚ) ∧
        d.mean = ((values.sum : ℤ) : ℚ) / (values.length : ℚ) := by
  refine ⟨by simp [calc_distribution, percentile], ?_⟩
  intro values hne
  have hlen : (values.mergeSort intLe).length = values.length := by simp
  have hsne : values.mergeSort intLe ≠ [] := by
    intro h
    rw [h] at hlen
    exact hne (List.length_eq_zero.mp hlen.symm)
  obtain ⟨q25v, h25⟩ := percentile_isSome _ 25 hsne (by norm_num) (by norm_num)
  obtain ⟨q50v, h50⟩ := percentile_isSome _ 50 hsne (by norm_num) (by norm_num)
  obtain ⟨q75v, h75⟩ := percentile_isSome _ 75 hsne (by norm_num) (by norm_num)
  have hsum : (((values.mergeSort intLe).sum : ℤ) : ℚ) = ((values.sum : ℤ) : ℚ) := by
    exact_mod_cast congrArg Int.cast ((List.mergeSort_perm values intLe).sum_eq)
  refine ⟨⟨(((values.mergeSort intLe).headD 0 : ℤ) : ℚ), q25v, q50v, q75v,
      (((values.mergeSort intLe).getLastD 0 : ℤ) : ℚ),
      ((values.sum : ℤ) : ℚ) / (values.length : ℚ)⟩, ?_, rfl, rfl, rfl⟩
  simp only [calc_distribution]
  rw [head?_eq_headD _ hsne, getLast?_eq_getLastD _ hsne, h25, h50, h75, hsum, hlen]

/-- Witness for C2 at `values = [5]`. -/
theorem calc_distribution_empty_fails_nonempty_stats_witness :
    ∃ d, calc_distribution [5] = some d ∧
      d.min = (((([5] : List ℤ).mergeSort intLe).headD 0 : ℤ) : ℚ) ∧
      d.max = (((([5] : List ℤ).mergeSort intLe).getLastD 0 : ℤ) : ℚ) ∧
      d.mean = ((([5] : List ℤ).sum : ℤ) : ℚ) / (([5] : List ℤ).length : ℚ) :=
  calc_distribution_empty_fails_nonempty_stats.2 [5] (by simp)

/-! ### C3: clinical significance -/

/-- Counterexample to C3 as stated: on a record whose `CLNSIG` field holds
the two values `"Pathogenic"` and `"Benign"`, the code keeps only the
first value, not the comma-joined string the claim describes. -/
theorem clnsig_not_comma_joined :
    build_clnsig (some ["Pathogenic", "Benign"]) = some (some "Pathogenic") ∧
    clnsig_spec_joined (some ["Pathogenic", "Benign"]) = some "Pathogenic,Benign" ∧
    (some "Pathogenic" : Option String) ≠ some "Pathogenic,Benign" :=
  ⟨rfl, rfl, by decide⟩

/-- C3 amended: when `CLNSIG` is present with one or more values, `clnsig`
is the FIRST clinical significance value; when it is absent, `clnsig` is
`none`. -/
theorem clnsig_first_value :
    build_clnsig none = some none ∧
    ∀ (v : String) (rest : List String), build_clnsig (some (v :: rest)) = some (some v) :=
  ⟨rfl, fun _ _ => rfl⟩

/-! ### C4: the disable-SSL toggle -/

/-- C4 (code bug): the value handed to `danger_accept_invalid_certs` is the
NEGATION of the `--disable-ssl` flag, so with the toggle unset (the
default) invalid certificates are accepted and with the toggle set they
are rejected — the opposite of the claim and of the flag's own help text
("Disable SSL certification verification"). -/
theorem ssl_toggle_inverted :
    client_accepts_invalid_certs false = true ∧
    client_accepts_invalid_certs true = false :=
  ⟨rfl, rfl⟩

/-! ### C5: snp identifiers -/

/-- C5: the placeholder identifier `"."` yields no `snpIds`; any other
identifier is split on `';'` in order, e.g. `"rs1;rs2"` yields
`["rs1", "rs2"]`. -/
theorem snp_ids_spec :
    get_snp_ids "." = none ∧
    get_snp_ids "rs1;rs2" = some ["rs1", "rs2"] ∧
    ∀ id : String, id ≠ "." →
      get_snp_ids id = some ((split_char ';' id.data).map String.mk) := by
  refine ⟨rfl, by decide, ?_⟩
  intro id h
  simp only [get_snp_ids, if_neg h]

/-- Witness for C5 at the identifier `"rs5"`. -/
theorem snp_ids_spec_witness :
    get_snp_ids "rs5" = some ((split_char ';' "rs5".data).map String.mk) :=
  snp_ids_spec.2.2 "rs5" (by decide)

/-! ### C6, C7, C8: annotation extraction -/

theorem get_field_eq_none (fields : List (List String)) (index : Nat)
    (h : ∃ b ∈ fields, b.length ≤ index) : get_field fields index = none := by
  induction fields with
  | nil => simp at h
  | cons block rest ih =>
    obtain ⟨b, hb, hble⟩ := h
    rcases List.mem_cons.mp hb with rfl | hmem
    · simp only [get_field]
      rw [List.getElem?_eq_none hble]
    · simp only [get_field, ih ⟨b, hmem, hble⟩]
      cases block[index]? <;> rfl

theorem get_field_eq_map (fields : List (List String)) (index : Nat)
    (h : ∀ b ∈ fields, index < b.length) :
    get_field fields index = some (fields.map (fun b => b.getD index "")) := by
  induction fields with
  | nil => rfl
  | cons block rest ih =>
    have hb := h block (List.mem_cons_self block rest)
    have hrest := ih (fun b hbm => h b (List.mem_cons_of_mem block hbm))
    have hv : block.getD index "" = block[index] := by
      rw [List.getD_eq_getElem?_getD, List.getElem?_eq_getElem hb, Option.getD_some]
    simp only [get_field, hrest, List.map_cons, List.getElem?_eq_getElem hb, hv]

/-- C8: if some annotation block has at most `index` sub-fields the
extraction fails (`none`, modelling the fatal indexing panic) rather than
skipping the block; if every block is long enough it succeeds, one value
per block. -/
theorem get_field_index_range :
    ∀ (fields : List (List String)) (index : Nat),
      ((∃ b ∈ fields, b.length ≤ index) → get_field fields index = none) ∧
      ((∀ b ∈ fields, index < b.length) →
        get_field fields index = some (fields.map (fun b => b.getD index ""))) :=
  fun fields index => ⟨get_field_eq_none fields index, get_field_eq_map fields index⟩

/-- Witness for C8: a single two-field block fails at index 2 and succeeds
at index 1. -/
theorem get_field_index_range_witness :
    get_field [["a", "b"]] 2 = none ∧
    get_field [["a", "b"]] 1 = some ([["a", "b"]].map (fun b => b.getD 1 "")) :=
  ⟨(get_field_index_range [["a", "b"]] 2).1 ⟨["a", "b"], by decide⟩,
   (get_field_index_range [["a", "b"]] 1).2 (by decide)⟩

/-- C6: `geneSymbol`, `variantType` and `hgvs` are all `none` together when
the `ANN` field is absent, and whenever a `Variant` is built from a
present `ANN` field all three are `some` together — a mix never occurs. -/
theorem ann_joint_presence :
    build_ann none = some (none, none, none) ∧
    ∀ (blocks : List String) (g t h : Option (List String)),
      build_ann (some blocks) = some (g, t, h) → g.isSome ∧ t.isSome ∧ h.isSome := by
  refine ⟨rfl, ?_⟩
  intro blocks g t h hb
  simp only [build_ann] at hb
  split at hb
  · simp only [Option.some.injEq, Prod.mk.injEq] at hb
    obtain ⟨rfl, rfl, rfl⟩ := hb
    exact ⟨rfl, rfl, rfl⟩
  · exact Option.noConfusion hb

/-- Witness for C6: a present (empty) annotation list yields three `some`
fields. -/
theorem ann_joint_presence_witness :
    (some ([] : List String)).isSome ∧ (some ([] : List String)).isSome ∧
      (some ([] : List String)).isSome :=
  ann_joint_presence.2 [] (some []) (some []) (some []) rfl

/-- C7: a present annotation field is split per block on `'|'` and the
sub-fields at indices 3, 5 and 9 are gathered across blocks in order; on
the two example blocks this yields `["GENE1","GENE2"]`,
`["TYPE1","TYPE2"]` and `["HGVS1","HGVS2"]`. -/
theorem ann_positional_extraction :
    build_ann (some ["A|B|C|GENE1|E|TYPE1|G|H|I|HGVS1", "A|B|C|GENE2|E|TYPE2|G|H|I|HGVS2"]) =
      some (some ["GENE1", "GENE2"], some ["TYPE1", "TYPE2"], some ["HGVS1", "HGVS2"]) ∧
    ∀ blocks : List String, (∀ b ∈ blocks, 9 < (split_ann b).length) →
      build_ann (some blocks) =
        some (some (blocks.map (fun b => (split_ann b).getD 3 "")),
          some (blocks.map (fun b => (split_ann b).getD 5 "")),
          some (blocks.map (fun b => (split_ann b).getD 9 ""))) := by
  constructor
  · rfl
  · intro blocks hlong
    have h3 : ∀ f ∈ blocks.map split_ann, GENE_SYMBOL < f.length := by
      intro f hf
      obtain ⟨b, hbm, rfl⟩ := List.mem_map.mp hf
      exact lt_trans (by norm_num [GENE_SYMBOL]) (hlong b hbm)
    have h5 : ∀ f ∈ blocks.map split_ann, TYPE < f.length := by
      intro f hf
      obtain ⟨b, hbm, rfl⟩ := List.mem_map.mp hf
      exact lt_trans (by norm_num [TYPE]) (hlong b hbm)
    have h9 : ∀ f ∈ blocks.map split_ann, HGVS < f.length := by
      intro f hf
      obtain ⟨b, hbm, rfl⟩ := List.mem_map.mp hf
      exact hlong b hbm
    simp only [build_ann, get_field_eq_map _ _ h3, get_field_eq_map _ _ h5,
      get_field_eq_map _ _ h9, List.map_map]
    rfl

/-- Witness for C7 on a single ten-field block. -/
theorem ann_positional_extraction_witness :
    build_ann (some ["q|w|e|r|t|y|u|i|o|p"]) =
      some (some (["q|w|e|r|t|y|u|i|o|p"].map (fun b => (split_ann b).getD 3 "")),
        some (["q|w|e|r|t|y|u|i|o|p"].map (fun b => (split_ann b).getD 5 "")),
        some (["q|w|e|r|t|y|u|i|o|p"].map (fun b => (split_ann b).getD 9 ""))) :=
  ann_positional_extraction.2 ["q|w|e|r|t|y|u|i|o|p"] (by decide)

/-! ### C9: filter counters and the end-of-run report -/

theorem step_counters_total (do_filter has_pass : Bool) (c : RunCounters) :
    (step_counters do_filter has_pass c).total_variants = c.total_variants + 1 := by
  simp only [step_counters]
  split <;> rfl

theorem step_counters_passed_le (do_filter has_pass : Bool) (c : RunCounters) :
    c.passed_variants ≤ (step_counters do_filter has_pass c).passed_variants ∧
    (step_counters do_filter has_pass c).passed_variants ≤ c.passed_variants + 1 := by
  simp only [step_counters]
  split <;> simp

theorem step_counters_no_filter (has_pass : Bool) (c : RunCounters) :
    step_counters false has_pass c =
      ⟨c.total_variants + 1, c.passed_variants + 1⟩ := by
  simp [step_counters]

theorem foldl_counters_le (do_filter : Bool) (records : List Bool) (c : RunCounters)
    (h : c.passed_variants ≤ c.total_variants) :
    (records.foldl (fun c r => step_counters do_filter r c) c).passed_variants ≤
      (records.foldl (fun c r => step_counters do_filter r c) c).total_variants := by
  induction records generalizing c with
  | nil => exact h
  | cons r rest ih =>
    refine ih (step_counters do_filter r c) ?_
    have h1 := step_counters_total do_filter r c
    have h2 := (step_counters_passed_le do_filter r c).2
    omega

theorem foldl_counters_eq_of_no_filter (records : List Bool) (c : RunCounters)
    (h : c.passed_variants = c.total_variants) :
    (records.foldl (fun c r => step_counters false r c) c).passed_variants =
      (records.foldl (fun c r => step_counters false r c) c).total_variants := by
  induction records generalizing c with
  | nil => exact h
  | cons r rest ih =>
    refine ih (step_counters false r c) ?_
    rw [step_counters_no_filter r c]
    simp [h]

theorem total_line_ne_passed_line (a b : String) :
    ("Passed variants: " ++ a) ≠ ("Total variants: " ++ b) := by
  obtain ⟨la⟩ := a
  obtain ⟨lb⟩ := b
  intro h
  have h2 : some 'P' = some 'T' := congrArg (fun s => s.data.head?) h
  exact absurd h2 (by decide)

/-- C9: the passed counter never exceeds the total counter; each processed
record increases the total by exactly one and the passed counter by zero
or one (both counters are monotone); with filtering disabled the two
counters agree (every record passes); the total line is always printed and
the passed line is printed exactly when filtering was active. -/
theorem counters_invariants :
    (∀ (do_filter : Bool) (records : List Bool),
        (run_counters do_filter records).passed_variants ≤
          (run_counters do_filter records).total_variants) ∧
    (∀ (do_filter has_pass : Bool) (c : RunCounters),
        (step_counters do_filter has_pass c).total_variants = c.total_variants + 1 ∧
        c.passed_variants ≤ (step_counters do_filter has_pass c).passed_variants ∧
        (step_counters do_filter has_pass c).passed_variants ≤ c.passed_variants + 1) ∧
    (∀ records : List Bool,
        (run_counters false records).passed_variants =
          (run_counters false records).total_variants) ∧
    (∀ (do_filter : Bool) (c : RunCounters),
        ("Total variants: " ++ toString c.total_variants) ∈ final_report do_filter c) ∧
    (∀ c : RunCounters,
        ("Passed variants: " ++ toString c.passed_variants) ∈ final_report true c) ∧
    (∀ c : RunCounters,
        ("Passed variants: " ++ toString c.passed_variants) ∉ final_report false c) := by
  refine ⟨fun do_filter records => foldl_counters_le do_filter records ⟨0, 0⟩ le_rfl,
    fun do_filter has_pass c => ⟨step_counters_total do_filter has_pass c,
      (step_counters_passed_le do_filter has_pass c).1,
      (step_counters_passed_le do_filter has_pass c).2⟩,
    fun records => foldl_counters_eq_of_no_filter records ⟨0, 0⟩ rfl,
    fun do_filter c => List.mem_cons_self _ _,
    fun c => by simp [final_report],
    fun c => ?_⟩
  intro hmem
  simp only [final_report, if_neg Bool.false_ne_true, List.mem_cons, List.not_mem_nil,
    or_false] at hmem
  exact total_line_ne_passed_line (toString c.passed_variants) (toString c.total_variants) hmem

/-- Witness for C9: the counter invariant at a concrete two-record run. -/
theorem counters_invariants_witness :
    (run_counters true [true, false]).passed_variants ≤
      (run_counters true [true, false]).total_variants :=
  counters_invariants.1 true [true, false]
